import Mathlib

/-!
Verification of the relational range-expression synthesizer
(`edb/server/pgsql/compiler/dbobj.py`).

The Python module is shallowly embedded below.  Schema-catalog lookups,
the alias allocator and the path-context tagging helpers live outside the
translated file; they are modelled from the specification as explicit
structure fields (see the doc comments).  All functions are pure: the
mutable alias allocator becomes an explicit `Nat` counter threaded through
every call, and operations that can raise in Python (out-of-bounds
subscripts, exhausted recursion) return `Except Err`.
-/

set_option maxRecDepth 4000

/-- An opaque path identifier (`irast.PathId`); the synthesizer only stamps
and copies these, so a `Nat` suffices. -/
abbrev PathId := Nat

/-- A qualified schema name (`module::name`). -/
structure QName where
  module : String
  name : String
deriving DecidableEq

/-- `pgast.Alias`. -/
structure Alias where
  aliasname : String
  colnames : List String := []
deriving DecidableEq

/-- `pgast.ColumnRef`.  The `nullable`/`optional` attributes are tri-state in
the source (`True`/`False`/`None`), hence `Option Bool`. -/
structure ColumnRef where
  name : List String
  nullable : Option Bool := none
  optional : Option Bool := none
deriving DecidableEq

/-- `pgast.ResTarget` restricted to the column-reference payloads this module
constructs. -/
structure ResTarget where
  val : ColumnRef
  name : Option String := none
deriving DecidableEq

/-- `pgast.Relation` (also standing in for the named overlay relations /
CTEs handed to the synthesizer, which it only ever wraps in a `RangeVar`
and reads `.name` from). -/
structure Relation where
  schemaname : Option String := none
  name : String
  path_id : Option PathId := none
  is_distinct : Bool := false
deriving DecidableEq

/-- The relational-AST nodes `dbobj.py` builds: `RangeVar`, `RangeSubselect`
and `SelectStmt`.  `selectStmt` fields follow the source keyword order:
`from_clause`, `target_list`, `op`, `larg`, `rarg`, `all`, `is_distinct`,
`path_id`, then the two path-context registries written by
`pathctx.put_path_value_rvar` / `put_path_bond`, and `rptr_rvar`. -/
inductive Node where
  | rangeVar (relation : Relation) (al : Alias)
  | rangeSubselect (subquery : Node) (al : Alias)
  | selectStmt
      (from_clause : List Node)
      (target_list : List ResTarget)
      (op : Option String)
      (larg : Option Node)
      (rarg : Option Node)
      (all : Bool)
      (is_distinct : Bool)
      (path_id : Option PathId)
      (path_rvar_map : List (PathId × Node))
      (path_bonds : List PathId)
      (rptr_rvar : Option Node)

/-- `rvar.alias.aliasname` (defined only on range vars in the source). -/
def Node.aliasnameOf : Node → String
  | .rangeVar _ al => al.aliasname
  | .rangeSubselect _ al => al.aliasname
  | .selectStmt .. => ""

/-- `qry.from_clause` (empty for non-queries). -/
def Node.from_clauseOf : Node → List Node
  | .selectStmt fc _ _ _ _ _ _ _ _ _ _ => fc
  | _ => []

/-- `qry.larg`. -/
def Node.largOf : Node → Option Node
  | .selectStmt _ _ _ l _ _ _ _ _ _ _ => l
  | _ => none

/-- `qry.op`. -/
def Node.opOf : Node → Option String
  | .selectStmt _ _ op _ _ _ _ _ _ _ _ => op
  | _ => none

/-- `qry.is_distinct` of a query node. -/
def Node.isDistinctOf : Node → Bool
  | .selectStmt _ _ _ _ _ _ d _ _ _ _ => d
  | _ => false

/-- `qry.path_id` of a query node. -/
def Node.pathIdOf : Node → Option PathId
  | .selectStmt _ _ _ _ _ _ _ p _ _ _ => p
  | _ => none

/-- `rvar.query.is_distinct`: the `.query` of a `RangeVar` is its relation,
the `.query` of a `RangeSubselect` is its subquery. -/
def Node.queryIsDistinct : Node → Bool
  | .rangeVar r _ => r.is_distinct
  | .rangeSubselect s _ => s.isDistinctOf
  | _ => false

/-- `rvar.query.path_id`. -/
def Node.queryPathId : Node → Option PathId
  | .rangeVar r _ => r.path_id
  | .rangeSubselect s _ => s.pathIdOf
  | _ => none

/-- The subquery of a `RangeSubselect`. -/
def Node.subqueryOf : Node → Option Node
  | .rangeSubselect s _ => some s
  | _ => none

/-- `qry.op, qry.rarg = op, rarg` — the in-place set-operation assignment
inside `range_from_queryset`. -/
def Node.setOpRarg : Node → String → Node → Node
  | .selectStmt fc tl _ l _ a d p prm pb rr, op, rarg =>
      .selectStmt fc tl (some op) l (some rarg) a d p prm pb rr
  | n, _, _ => n

/-- `node.is_distinct = True; node.path_id = path_id` applied to a query
node (`Relation` updates are on the structure itself). -/
def Node.setDistinctPath : Node → PathId → Node
  | .selectStmt fc tl op l r a _ _ prm pb rr, pid =>
      .selectStmt fc tl op l r a true (some pid) prm pb rr
  | n, _ => n

/-- `rvar.query.is_distinct = True; rvar.query.path_id = path_id` — the
final stamping in `range_for_objtype`. -/
def Node.stampQuery : Node → PathId → Node
  | .rangeVar rel al, pid =>
      .rangeVar { rel with is_distinct := true, path_id := some pid } al
  | .rangeSubselect s al, pid => .rangeSubselect (s.setDistinctPath pid) al
  | n, _ => n

/-- Failure modes of the embedding.  `indexError` models Python's
`IndexError` from an out-of-bounds subscript (`set_ops[0]`,
`from_clause[0]`); `fuelExhausted` is the embedding's recursion cap for
the virtual-type recursion; `emptyComposition` is the
`EmptyCompositionError` that the specification's error taxonomy mandates —
it is modelled from the spec and is never produced by the translated
source code. -/
inductive Err where
  | indexError
  | fuelExhausted
  | emptyComposition
deriving DecidableEq

/-- Modelled from the spec: the schema catalog (an external collaborator,
spec §6) — object-type/pointer lookup, inheritance navigation, backend
storage-name resolution, short-name accessors and pointer-storage column
resolution.  `getptr` returns `none` where the Python `source.getptr`
raises `KeyError`.  The source iterates children/descendants as unordered
(frozen)sets; the model fixes a deterministic list order, which the spec
(§9) requires of any faithful reimplementation. -/
structure Schema where
  isVirtual : QName → Bool
  childrenOf : QName → List QName
  materialOf : QName → QName
  backendName : QName → String × String
  shortNameOf : QName → QName
  descendantsOf : QName → List QName
  getptr : QName → QName → Option QName
  ptrMaterialOf : QName → QName
  ptrSourceOf : QName → QName
  ptrStorageCol : QName → String

/-- The ambient compilation environment (`context.Environment`): the schema
snapshot and the overlay registry.  The mutable alias allocator is threaded
separately as a `Nat` counter. -/
structure Env where
  schema : Schema
  rel_overlays : QName → List (String × Relation)

/-- Modelled from the spec: the alias allocator capability
(`allocate(hint) -> identifier`, unique within one compilation unit) —
`env.aliases.get(hint)` in the source.  Returns the fresh identifier and
the advanced allocator state. -/
def aliasesGet (hint : String) (ctr : Nat) : String × Nat :=
  (hint ++ "~" ++ toString ctr, ctr + 1)

/-- `add_rel_overlay`: append an `(op, rel)` overlay entry under the
type's name (creating the list on first use; registration never resets). -/
def add_rel_overlay (stype : QName) (op : String) (rel : Relation)
    (env : Env) : Env :=
  { env with rel_overlays := fun n =>
      if n = stype then env.rel_overlays n ++ [(op, rel)]
      else env.rel_overlays n }

/-- `SelectStmt(all=True, larg=l)` — the chain node allocated by
`range_from_queryset`. -/
def mkAllStmt (larg : Option Node) : Node :=
  .selectStmt [] [] none larg none true false none [] [] none

/-- The mutation loop of `range_from_queryset`: for each `(op, rarg)` of
`set_ops[1:]`, assign `qry.op, qry.rarg = op, rarg` and wrap the result as
the `larg` of a fresh `SelectStmt(all=True)`. -/
def chainLoop : Node → List (String × Node) → Node
  | qry, [] => qry
  | qry, (op, rarg) :: rest =>
      chainLoop (mkAllStmt (some (qry.setOpRarg op rarg))) rest

/-- `range_from_queryset`: fold an ordered `set_ops` list into one range.
An empty list hits `set_ops[0]` and raises `IndexError`; a single entry
returns `set_ops[0][1].from_clause[0]` directly; otherwise the left-deep
set-operation chain is built and wrapped as a `RangeSubselect` aliased
from the target type's short name. -/
def range_from_queryset (set_ops : List (String × Node)) (stype : QName)
    (env : Env) (ctr : Nat) : Except Err (Node × Nat) :=
  match set_ops with
  | [] => .error .indexError
  | [e] =>
      match e.2.from_clauseOf with
      | [] => .error .indexError
      | rvar :: _ => .ok (rvar, ctr)
  | e1 :: e2 :: rest =>
      let qN := chainLoop (mkAllStmt (some e1.2)) (e2 :: rest)
      match qN.largOf with
      | none => .error .indexError
      | some qry =>
          let (a, ctr) := aliasesGet (env.schema.shortNameOf stype).name ctr
          .ok (.rangeSubselect qry ⟨a, []⟩, ctr)

/-- A column specification accepted by `get_column`: a bare name or an
existing `ColumnRef`. -/
inductive ColSpec where
  | str (s : String)
  | col (c : ColumnRef)
deriving DecidableEq

/-- `get_column`: build a column reference qualified by the range var's
alias.  An existing `ColumnRef` contributes its last name component, its
optionality, and — when no explicit `nullable` was passed — its
nullability; a bare name defaults to nullable.  (`colspec.name[-1]` on an
empty name list would raise in Python; the model totalises it with `""`,
a case never constructed by this module.) -/
def get_column (rvar : Option Node) (colspec : ColSpec)
    (optional : Bool := false) (nullable : Option Bool := none) : ColumnRef :=
  let picked :=
    match colspec with
    | .col c =>
        (c.name.getLastD "",
         if nullable = none then c.nullable else nullable,
         c.optional)
    | .str s =>
        (s, if nullable = none then some true else nullable, some optional)
  let nm :=
    match rvar with
    | none => [picked.1]
    | some rv => [rv.aliasnameOf, picked.1]
  { name := nm, nullable := picked.2.1, optional := picked.2.2 }

/-- `pgast.OutputVar`: either a `ColumnRef` or a `TupleVar` whose elements
are `(path_id, name, val)` triples (`pgast.TupleElement`). -/
inductive OutputVar where
  | col (c : ColumnRef)
  | tuple (elements : List (Option PathId × OutputVar × Option OutputVar))
      (named : Bool)

mutual
/-- `get_rvar_var`: resolve an output variable against a range var.  A
`TupleVar` is resolved element-wise (with default flags, see
`getRvarVarEls`) preserving each element's `path_id` and `name`; a
`ColumnRef` delegates to `get_column`. -/
def get_rvar_var (rvar : Option Node) (var : OutputVar)
    (optional : Bool := false) (nullable : Option Bool := none) : OutputVar :=
  match var with
  | .tuple elements named => .tuple (getRvarVarEls rvar elements) named
  | .col c => .col (get_column rvar (.col c) optional nullable)

/-- The element loop of `get_rvar_var`'s tuple branch: each element's
`name` is resolved by a plain `get_rvar_var(rvar, el.name)` call — the
caller's `optional`/`nullable` flags are not forwarded. -/
def getRvarVarEls (rvar : Option Node) :
    List (Option PathId × OutputVar × Option OutputVar) →
    List (Option PathId × OutputVar × Option OutputVar)
  | [] => []
  | (pid, nm, _) :: rest =>
      (pid, nm, some (get_rvar_var rvar nm)) :: getRvarVarEls rvar rest
end

/-- The overlay-consumption loop of `range_for_material_objtype`: each
overlay entry is wrapped in a fresh `RangeVar`/`SelectStmt` tagged with
the path id; a `replace` entry is rewritten to `union` after resetting
the whole accumulated `set_ops` list to `[]`. -/
def overlayLoop (path_id : PathId) :
    List (String × Relation) → List (String × Node) → Nat →
    List (String × Node) × Nat
  | [], set_ops, ctr => (set_ops, ctr)
  | (op, cte) :: rest, set_ops, ctr =>
      let (a, ctr) := aliasesGet cte.name ctr
      let rvar : Node := .rangeVar cte ⟨a, []⟩
      let qry : Node :=
        .selectStmt [rvar] [] none none none false false none
          [(path_id, rvar)] [path_id] none
      let opOps :=
        if op = "replace" then ("union", ([] : List (String × Node)))
        else (op, set_ops)
      overlayLoop path_id rest (opOps.2 ++ [(opOps.1, qry)]) ctr

/-- `range_for_material_objtype`: normalize to the material type, build the
direct table reference (redirecting the reserved `schema` module to
`edgedbss`), and, when overlays are registered and requested, splice them
in via `overlayLoop` and collapse with `range_from_queryset`. -/
def range_for_material_objtype (objtype : QName) (path_id : PathId)
    (include_overlays : Bool) (env : Env) (ctr : Nat) :
    Except Err (Node × Nat) :=
  let objtype' := env.schema.materialOf objtype
  let objtype_name := objtype'
  let table_name := (env.schema.backendName objtype').2
  let table_schema_name :=
    if objtype_name.module = "schema" then "edgedbss"
    else (env.schema.backendName objtype').1
  let relation : Relation :=
    { schemaname := some table_schema_name, name := table_name,
      path_id := some path_id }
  let (a, ctr) := aliasesGet objtype_name.name ctr
  let rvar : Node := .rangeVar relation ⟨a, []⟩
  let overlays := env.rel_overlays objtype_name
  if overlays ≠ [] ∧ include_overlays = true then
    let qry : Node :=
      .selectStmt [rvar] [] none none none false false none
        [(path_id, rvar)] [path_id] none
    let so := overlayLoop path_id overlays [("union", qry)] ctr
    range_from_queryset so.1 objtype' env so.2
  else
    .ok (rvar, ctr)

/-- The child-union loop of `range_for_objtype`'s virtual branch: one
`union` branch per child range, each wrapped in a `SelectStmt` tagged with
the same path id.  The recursive synthesis is abstracted as `rec` so the
loop can be analysed independently of the fuel-indexed recursion. -/
def childrenLoop (rec : QName → Nat → Except Err (Node × Nat))
    (path_id : PathId) :
    List QName → List (String × Node) → Nat →
    Except Err (List (String × Node) × Nat)
  | [], set_ops, ctr => .ok (set_ops, ctr)
  | child :: rest, set_ops, ctr =>
      (rec child ctr).bind fun p =>
        childrenLoop rec path_id rest
          (set_ops ++ [("union",
            .selectStmt [p.1] [] none none none false false none
              [(path_id, p.1)] [path_id] none)]) p.2

/-- `range_for_objtype`: dispatch on `is_virtual` — a concrete type goes to
`range_for_material_objtype`, a virtual type unions the recursively
synthesized ranges of its children; in both cases the result's query is
stamped `is_distinct = True` with the given path id.  The recursion is
fuel-bounded (the source recurses on the schema's inheritance DAG, which
it assumes finite). -/
def range_for_objtype (fuel : Nat) (objtype : QName) (path_id : PathId)
    (include_overlays : Bool) (env : Env) (ctr : Nat) :
    Except Err (Node × Nat) :=
  match fuel with
  | 0 => .error .fuelExhausted
  | fuel + 1 =>
      (if env.schema.isVirtual objtype = false then
          range_for_material_objtype objtype path_id include_overlays env ctr
        else
          (childrenLoop
              (fun c c2 =>
                range_for_objtype fuel c path_id include_overlays env c2)
              path_id (env.schema.childrenOf objtype) [] ctr).bind
            fun so => range_from_queryset so.1 objtype env so.2).map
        fun p => (p.1.stampQuery path_id, p.2)

/-- `range_for_set`: thin dispatcher from an IR set (its type and path id)
to `range_for_objtype`. -/
def range_for_set (fuel : Nat) (stype : QName) (path_id : PathId)
    (include_overlays : Bool) (env : Env) (ctr : Nat) :
    Except Err (Node × Nat) :=
  range_for_objtype fuel stype path_id include_overlays env ctr

/-- `table_from_ptrcls`: the direct table reference for a link's storage
(redirecting the reserved `schema` module to `edgedbss`), aliased from the
link's short name. -/
def table_from_ptrcls (ptrcls : QName) (env : Env) (ctr : Nat) :
    Node × Nat :=
  let table_name := (env.schema.backendName ptrcls).2
  let pname := env.schema.shortNameOf ptrcls
  let table_schema_name :=
    if pname.module = "schema" then "edgedbss"
    else (env.schema.backendName ptrcls).1
  let (a, ctr) := aliasesGet pname.name ctr
  (.rangeVar { schemaname := some table_schema_name, name := table_name }
    ⟨a, []⟩, ctr)

/-- The overlay-consumption loop of `range_for_ptrcls`: each overlay entry
becomes a `SelectStmt` projecting the two pointer columns from the overlay
relation, appended to `set_ops` with its operation string unchanged. -/
def ptrOverlayLoop (cols : List String) :
    List (String × Relation) → List (String × Node) → Nat →
    List (String × Node) × Nat
  | [], set_ops, ctr => (set_ops, ctr)
  | (op, cte) :: rest, set_ops, ctr =>
      let (a, ctr) := aliasesGet cte.name ctr
      let rvar : Node := .rangeVar cte ⟨a, []⟩
      let qry : Node :=
        .selectStmt [rvar]
          (cols.map fun col => { val := { name := [col] } })
          none none none false false none [] [] none
      ptrOverlayLoop cols rest (set_ops ++ [(op, qry)]) ctr

/-- The descendant-sifting loop of `range_for_ptrcls`: for each candidate
source type, look up a pointer with the link's short name (a miss is
silently skipped), normalize it to its material form, skip it if that
storage-owning pointer was already visited, and otherwise append one
`union` branch selecting both columns from its table (tagged with
`rptr_rvar`) followed by any registered overlay branches. -/
def ptrSourcesLoop (linkname : QName) (cols : List String)
    (include_overlays : Bool) (env : Env) :
    List QName → List QName → List (String × Node) → Nat →
    List (String × Node) × Nat
  | [], _, set_ops, ctr => (set_ops, ctr)
  | source :: rest, ptrclses, set_ops, ctr =>
      match env.schema.getptr source linkname with
      | none => ptrSourcesLoop linkname cols include_overlays env
          rest ptrclses set_ops ctr
      | some ptr =>
          let src_ptrcls := env.schema.ptrMaterialOf ptr
          if src_ptrcls ∈ ptrclses then
            ptrSourcesLoop linkname cols include_overlays env
              rest ptrclses set_ops ctr
          else
            let tb := table_from_ptrcls src_ptrcls env ctr
            let qry : Node :=
              .selectStmt [tb.1]
                (cols.map fun colname =>
                  { val := { name := [tb.1.aliasnameOf, colname] },
                    name := some colname })
                none none none false false none [] [] (some tb.1)
            let set_ops := set_ops ++ [("union", qry)]
            let overlays :=
              env.rel_overlays (env.schema.shortNameOf src_ptrcls)
            let so :=
              if overlays ≠ [] ∧ include_overlays = true then
                ptrOverlayLoop cols overlays set_ops tb.2
              else (set_ops, tb.2)
            ptrSourcesLoop linkname cols include_overlays env
              rest (src_ptrcls :: ptrclses) so.1 so.2

/-- `range_for_ptrcls`: the pointer/link range synthesizer — fix the two
output columns (`std::source` and the link-biased storage column), iterate
the link's source type and all its descendants, and collapse the collected
branches with `range_from_queryset`.  The source iterates
`{endpoint} | set(descendants)` (unordered); the model fixes the
deterministic order `endpoint :: descendants`. -/
def range_for_ptrcls (ptrcls : QName) (_direction : String)
    (include_overlays : Bool) (env : Env) (ctr : Nat) :
    Except Err (Node × Nat) :=
  let linkname := env.schema.shortNameOf ptrcls
  let endpoint := env.schema.ptrSourceOf ptrcls
  let tgt_col := env.schema.ptrStorageCol ptrcls
  let cols := ["std::source", tgt_col]
  let sources := endpoint :: env.schema.descendantsOf endpoint
  let so := ptrSourcesLoop linkname cols include_overlays env
    sources [] [] ctr
  range_from_queryset so.1 ptrcls env so.2

/-- Observation: the leaves of a left-deep set-operation chain, in order. -/
def chainLeaves : Node → List Node
  | .selectStmt _ _ (some _) (some l) (some r) _ _ _ _ _ _ =>
      chainLeaves l ++ [r]
  | n => [n]

/-- Observation: the operation strings of a left-deep set-operation chain,
in order. -/
def chainOps : Node → List String
  | .selectStmt _ _ (some op) (some l) (some _) _ _ _ _ _ _ =>
      chainOps l ++ [op]
  | _ => []

/-- Observation: the branches a synthesized range is composed of — the
chain leaves of a `RangeSubselect`, or the node itself. -/
def rvarBranches : Node → List Node
  | .rangeSubselect s _ => chainLeaves s
  | n => [n]

/-- Observation: the relation a branch selects from (`from_clause[0]`'s
relation), used to identify object-type branches. -/
def branchSourceRel : Node → Option Relation
  | .selectStmt (.rangeVar rel _ :: _) _ _ _ _ _ _ _ _ _ _ => some rel
  | .rangeVar rel _ => some rel
  | _ => none

/-- Observation: the storage relation backing a pointer branch — the
relation of its `rptr_rvar` back-reference (or of the node itself when the
single-branch case returned the bare table reference). -/
def branchStorageRel : Node → Option Relation
  | .selectStmt _ _ _ _ _ _ _ _ _ _ (some (.rangeVar rel _)) => some rel
  | .rangeVar rel _ => some rel
  | _ => none

/-- Observation: the operation strings of the composed range of a range
var (empty for a direct table reference). -/
def rvarChainOps : Node → List String
  | .rangeSubselect s _ => chainOps s
  | _ => []

/-- The specification's left-deep chain: start from the first branch and
fold each subsequent `(op, relation)` pair into a new composed
`SelectStmt(all=True)` node, in input order. -/
def leftDeepChain (first : Node) (rest : List (String × Node)) : Node :=
  rest.foldl
    (fun acc p =>
      .selectStmt [] [] (some p.1) (some acc) (some p.2) true false none
        [] [] none)
    first

/-- Spec-side dedup keeping first occurrences, with an explicit seen set —
the abstract content of the `ptrclses` visited-set in `range_for_ptrcls`. -/
def dedupFirst (seen : List QName) : List QName → List QName
  | [] => []
  | m :: rest =>
      if m ∈ seen then dedupFirst seen rest
      else m :: dedupFirst (m :: seen) rest

/-- The storage-owning (material) pointers found for a link's short name
across a list of candidate source types, in traversal order, with
duplicates retained. -/
def materialsOf (env : Env) (linkname : QName) (srcs : List QName) :
    List QName :=
  srcs.filterMap fun s =>
    (env.schema.getptr s linkname).map env.schema.ptrMaterialOf

/-- The table relation `table_from_ptrcls` builds for a material pointer
(independent of the alias counter). -/
def tableRelFor (env : Env) (m : QName) : Relation :=
  { schemaname :=
      some (if (env.schema.shortNameOf m).module = "schema" then "edgedbss"
            else (env.schema.backendName m).1),
    name := (env.schema.backendName m).2 }

/-- A node shape invariant: every range var this module returns is either a
`RangeVar` or a `RangeSubselect` wrapping a `SelectStmt`. -/
def GoodRvar : Node → Prop
  | .rangeVar _ _ => True
  | .rangeSubselect s _ =>
      match s with
      | .selectStmt .. => True
      | _ => False
  | .selectStmt .. => False

/-- A `set_ops` entry whose query has a nonempty `from_clause` headed by a
well-shaped range var. -/
def ElemOk (e : String × Node) : Prop :=
  ∃ hd tl, e.2.from_clauseOf = hd :: tl ∧ GoodRvar hd

/-- A `set_ops` entry of the pointer synthesizer whose query selects from a
plain table range var with an un-distinct relation. -/
def PtrElemBase (e : String × Node) : Prop :=
  ∃ rel al tl, e.2.from_clauseOf = (.rangeVar rel al) :: tl ∧
    rel.is_distinct = false

/-- The base branch `range_for_ptrcls` builds for a material pointer `m`
under table alias `a`. -/
def baseQryFor (env : Env) (cols : List String) (m : QName) (a : String) :
    Node :=
  .selectStmt [.rangeVar (tableRelFor env m) ⟨a, []⟩]
    (cols.map fun colname =>
      { val := { name := [a, colname] }, name := some colname })
    none none none false false none [] []
    (some (.rangeVar (tableRelFor env m) ⟨a, []⟩))

/-- Relates a list of (deduplicated) material pointers to the branch list
the pointer synthesizer builds for them: one `union` base branch per
pointer, under some table alias. -/
inductive BranchesFor (env : Env) (cols : List String) :
    List QName → List (String × Node) → Prop
  | nil : BranchesFor env cols [] []
  | cons (m : QName) (a : String) (ms : List QName)
      (brs : List (String × Node)) :
      BranchesFor env cols ms brs →
      BranchesFor env cols (m :: ms)
        (("union", baseQryFor env cols m a) :: brs)

/-- A throwaway default node for total projections out of `Except`. -/
def nodeDefault : Node := .rangeVar { name := "" } ⟨"", []⟩

/-- Concrete fixture: an object type `default::T`. -/
def Tq : QName := ⟨"default", "T"⟩

/-- Concrete fixture: a link `default::lnk`. -/
def Pq : QName := ⟨"default", "lnk"⟩

/-- Concrete fixture: the link's declaring type `default::Root`. -/
def Rootq : QName := ⟨"default", "Root"⟩

/-- Concrete fixture: a descendant `default::Child1`. -/
def Child1q : QName := ⟨"default", "Child1"⟩

/-- Concrete fixture: a descendant `default::Child2`. -/
def Child2q : QName := ⟨"default", "Child2"⟩

/-- Concrete fixture: the specialized pointer owned by `Root`. -/
def pRoot : QName := ⟨"default", "lnkRoot"⟩

/-- Concrete fixture: a specialized pointer owned by `Child1`. -/
def pChild : QName := ⟨"default", "lnkChild"⟩

/-- Concrete fixture overlay relations. -/
def Xrel : Relation := { name := "X" }

/-- Concrete fixture overlay relation `Y`. -/
def Yrel : Relation := { name := "Y" }

/-- Concrete fixture overlay relation `Z`. -/
def Zrel : Relation := { name := "Z" }

/-- Concrete fixture overlay relation `W`. -/
def Wrel : Relation := { name := "W" }

/-- A minimal concrete schema: every type is concrete and material, tables
are named `tbl_<name>` in schema `public`, and there are no links. -/
def schemaT : Schema where
  isVirtual := fun _ => false
  childrenOf := fun _ => []
  materialOf := fun t => t
  backendName := fun t => ("public", "tbl_" ++ t.name)
  shortNameOf := fun t => t
  descendantsOf := fun _ => []
  getptr := fun _ _ => none
  ptrMaterialOf := fun p => p
  ptrSourceOf := fun p => p
  ptrStorageCol := fun _ => "std::target"

/-- `schemaT` with overlays `[union X, union Y, replace Z, union W]`
registered for `default::T`. -/
def envOverlayT : Env where
  schema := schemaT
  rel_overlays := fun n =>
    if n = Tq then
      [("union", Xrel), ("union", Yrel), ("replace", Zrel), ("union", Wrel)]
    else []

/-- A schema where link `lnk` on `Root` is implemented by two distinct
storage-owning pointers (`Root`'s and `Child1`'s). -/
def schemaPtr2 : Schema where
  isVirtual := fun _ => false
  childrenOf := fun _ => []
  materialOf := fun t => t
  backendName := fun t => ("public", "tbl_" ++ t.name)
  shortNameOf := fun p =>
    if p = pRoot then Pq else if p = pChild then Pq else p
  descendantsOf := fun t => if t = Rootq then [Child1q] else []
  getptr := fun s l =>
    if s = Rootq ∧ l = Pq then some pRoot
    else if s = Child1q ∧ l = Pq then some pChild
    else none
  ptrMaterialOf := fun p => p
  ptrSourceOf := fun _ => Rootq
  ptrStorageCol := fun _ => "std::target"

/-- `schemaPtr2` with no overlays. -/
def envPtr2 : Env where
  schema := schemaPtr2
  rel_overlays := fun _ => []

/-- A schema where `Root` is the only source implementing link `lnk`. -/
def schemaPtr1 : Schema where
  isVirtual := fun _ => false
  childrenOf := fun _ => []
  materialOf := fun t => t
  backendName := fun t => ("public", "tbl_" ++ t.name)
  shortNameOf := fun p => p
  descendantsOf := fun _ => []
  getptr := fun s l => if s = Rootq ∧ l = Pq then some Pq else none
  ptrMaterialOf := fun p => p
  ptrSourceOf := fun _ => Rootq
  ptrStorageCol := fun _ => "std::target"

/-- `schemaPtr1` with overlays `[union X, replace Z]` registered for the
pointer's short name. -/
def envPtrOv : Env where
  schema := schemaPtr1
  rel_overlays := fun n =>
    if n = Pq then [("union", Xrel), ("replace", Zrel)] else []

/-- A schema where `Root`, `Child1` and `Child2` all implement link `lnk`
through the same storage-owning material pointer. -/
def schemaShared : Schema where
  isVirtual := fun _ => false
  childrenOf := fun _ => []
  materialOf := fun t => t
  backendName := fun t => ("public", "tbl_" ++ t.name)
  shortNameOf := fun p => if p = pRoot then Pq else p
  descendantsOf := fun t => if t = Rootq then [Child1q, Child2q] else []
  getptr := fun s l =>
    if (s = Rootq ∨ s = Child1q ∨ s = Child2q) ∧ l = Pq then some pRoot
    else none
  ptrMaterialOf := fun p => p
  ptrSourceOf := fun _ => Rootq
  ptrStorageCol := fun _ => "std::target"

/-- `schemaShared` with no overlays. -/
def envShared : Env where
  schema := schemaShared
  rel_overlays := fun _ => []

/-- The object-type range synthesized for `default::T` under `envPtr2`. -/
def valObj : Node × Nat :=
  (range_for_objtype 1 Tq 7 true envPtr2 0).toOption.getD (nodeDefault, 0)

/-- The pointer range synthesized for `lnk` under `envPtr2`. -/
def valPtr2 : Node × Nat :=
  (range_for_ptrcls Pq "outbound" true envPtr2 0).toOption.getD
    (nodeDefault, 0)

/-- The pointer range synthesized for `lnk` under `envShared`. -/
def valShared : Node × Nat :=
  (range_for_ptrcls Pq "outbound" true envShared 0).toOption.getD
    (nodeDefault, 0)

theorem chainLoop_largOf (rest : List (String × Node)) :
    ∀ f : Node,
      (chainLoop (mkAllStmt (some f)) rest).largOf =
        some (leftDeepChain f rest) := by
  induction rest with
  | nil => intro f; rfl
  | cons p rest ih =>
      intro f
      exact ih (.selectStmt [] [] (some p.1) (some f) (some p.2) true false
        none [] [] none)

theorem rfq_cons_cons (e1 e2 : String × Node) (rest : List (String × Node))
    (stype : QName) (env : Env) (ctr : Nat) :
    range_from_queryset (e1 :: e2 :: rest) stype env ctr =
      .ok (.rangeSubselect (leftDeepChain e1.2 (e2 :: rest))
        ⟨(aliasesGet (env.schema.shortNameOf stype).name ctr).1, []⟩,
        (aliasesGet (env.schema.shortNameOf stype).name ctr).2) := by
  simp only [range_from_queryset]
  rw [chainLoop_largOf]

theorem rfq_single (e : String × Node) (hd : Node) (tl : List Node)
    (stype : QName) (env : Env) (ctr : Nat)
    (h : e.2.from_clauseOf = hd :: tl) :
    range_from_queryset [e] stype env ctr = .ok (hd, ctr) := by
  simp only [range_from_queryset]
  rw [h]

/-- C2: amended — on an empty branch list the Set Combinator fails by
raising `IndexError` from the out-of-bounds `set_ops[0]` subscript (it
does not synthesize any range expression, but neither does it raise a
dedicated `EmptyCompositionError`, which does not exist in the source). -/
theorem empty_set_ops_raises :
    ∀ (stype : QName) (env : Env) (ctr : Nat),
      range_from_queryset [] stype env ctr = .error .indexError :=
  fun _ _ _ => rfl

/-- C2: counterexample — at the concrete empty input the Set Combinator's
failure is `indexError`, not the `emptyComposition` error the claim
names. -/
theorem empty_set_ops_cex :
    range_from_queryset [] Tq envOverlayT 0 = .error .indexError ∧
      Err.indexError ≠ Err.emptyComposition :=
  ⟨rfl, by decide⟩

/-- C7: for a non-empty branch list, the Set Combinator returns a single
entry's first `from_clause` table reference directly (no wrapping), and
for two or more entries builds the left-deep set-operation chain in input
order (accumulator seeded with the first entry's relation) wrapped as a
subquery range aliased from the target entity's short name. -/
theorem set_combinator_shape :
    (∀ (op : String) (q t : Node) (stype : QName) (env : Env) (ctr : Nat),
        q.from_clauseOf = [t] →
        range_from_queryset [(op, q)] stype env ctr = .ok (t, ctr)) ∧
    (∀ (e1 e2 : String × Node) (rest : List (String × Node))
        (stype : QName) (env : Env) (ctr : Nat),
        range_from_queryset (e1 :: e2 :: rest) stype env ctr =
          .ok (.rangeSubselect (leftDeepChain e1.2 (e2 :: rest))
            ⟨(aliasesGet (env.schema.shortNameOf stype).name ctr).1, []⟩,
            (aliasesGet (env.schema.shortNameOf stype).name ctr).2)) := by
  constructor
  · intro op q t stype env ctr h
    exact rfq_single (op, q) t [] stype env ctr h
  · intro e1 e2 rest stype env ctr
    exact rfq_cons_cons e1 e2 rest stype env ctr

/-- C7: witness — a singleton branch list returns its table directly and a
two-entry list returns the aliased left-deep chain. -/
theorem set_combinator_shape_witness :
    (range_from_queryset
        [("union", .selectStmt [.rangeVar Xrel ⟨"x0", []⟩] [] none none none
          false false none [] [] none)]
        Tq envOverlayT 3 = .ok (.rangeVar Xrel ⟨"x0", []⟩, 3)) ∧
    (range_from_queryset
        [("union", .rangeVar Xrel ⟨"x1", []⟩),
         ("union", .rangeVar Yrel ⟨"y1", []⟩)]
        Tq envOverlayT 0 =
      .ok (.rangeSubselect
        (leftDeepChain (.rangeVar Xrel ⟨"x1", []⟩)
          [("union", .rangeVar Yrel ⟨"y1", []⟩)])
        ⟨"T~0", []⟩, 1)) :=
  ⟨set_combinator_shape.1 "union"
      (.selectStmt [.rangeVar Xrel ⟨"x0", []⟩] [] none none none false false
        none [] [] none)
      (.rangeVar Xrel ⟨"x0", []⟩) Tq envOverlayT 3 rfl,
   set_combinator_shape.2 ("union", .rangeVar Xrel ⟨"x1", []⟩)
      ("union", .rangeVar Yrel ⟨"y1", []⟩) [] Tq envOverlayT 0⟩

/-- C8: column-resolution nullability policy — a bare name with no
explicit nullability resolves nullable; an existing reference propagates
its nullability (when no explicit flag is passed) and its optionality; and
explicit parameters govern a bare-name resolution. -/
theorem get_column_nullability :
    (∀ (rvar : Option Node) (s : String) (opt : Bool),
        (get_column rvar (.str s) opt none).nullable = some true) ∧
    (∀ (rvar : Option Node) (c : ColumnRef) (opt : Bool),
        (get_column rvar (.col c) opt none).nullable = c.nullable ∧
        (get_column rvar (.col c) opt none).optional = c.optional) ∧
    (∀ (rvar : Option Node) (s : String) (opt b : Bool),
        (get_column rvar (.str s) opt (some b)).nullable = some b ∧
        (get_column rvar (.str s) opt (some b)).optional = some opt) :=
  ⟨fun _ _ _ => rfl, fun _ _ _ => ⟨rfl, rfl⟩, fun _ _ _ _ => ⟨rfl, rfl⟩⟩

/-- C9: resolving a 2-element named composite output variable against a
table handle qualifies each element's column to that table's alias,
preserving the element's own path identifier and name; and (the resolver
being pure) re-resolving against the same handle yields a structurally
equal result. -/
theorem tuple_resolution_round_trip :
    ∀ (rel : Relation) (al : Alias) (p1 p2 : Option PathId)
      (c1 c2 : ColumnRef) (v1 v2 : Option OutputVar) (nmf : Bool)
      (opt : Bool) (nul : Option Bool),
      get_rvar_var (some (.rangeVar rel al))
          (.tuple [(p1, .col c1, v1), (p2, .col c2, v2)] nmf) opt nul =
        .tuple
          [(p1, .col c1, some (.col
              { name := [al.aliasname, c1.name.getLastD ""],
                nullable := c1.nullable, optional := c1.optional })),
           (p2, .col c2, some (.col
              { name := [al.aliasname, c2.name.getLastD ""],
                nullable := c2.nullable, optional := c2.optional }))] nmf ∧
      get_rvar_var (some (.rangeVar rel al))
          (.tuple [(p1, .col c1, v1), (p2, .col c2, v2)] nmf) opt nul =
        get_rvar_var (some (.rangeVar rel al))
          (.tuple [(p1, .col c1, v1), (p2, .col c2, v2)] nmf) opt nul :=
  fun _ _ _ _ _ _ _ _ _ _ _ => ⟨rfl, rfl⟩

/-- C10: the tuple branch of the output-variable resolver ignores the
caller's `optional`/`nullable` flags — resolving a tuple-shaped variable
with any flags equals resolving it with the defaults. -/
theorem tuple_resolution_ignores_flags :
    ∀ (rvar : Option Node)
      (elements : List (Option PathId × OutputVar × Option OutputVar))
      (named : Bool) (opt : Bool) (nul : Option Bool),
      get_rvar_var rvar (.tuple elements named) opt nul =
        get_rvar_var rvar (.tuple elements named) false none :=
  fun _ _ _ _ _ => rfl

/-- C1: counterexample — for `default::T` with registered overlays
`[union X, union Y, replace Z, union W]`, the composed branch list is
`[Z, W]`: the `replace` reset (`set_ops = []`) discards the type's own
base storage branch too, so the claim's `[base, Z, W]` does not hold. -/
theorem replace_discards_base_cex :
    ((range_for_material_objtype Tq 7 true envOverlayT 0).toOption.map
        fun p => (rvarBranches p.1).map branchSourceRel) =
      some [some Zrel, some Wrel] ∧
    ((range_for_material_objtype Tq 7 true envOverlayT 0).toOption.map
        fun p => (rvarBranches p.1).map branchSourceRel) ≠
      some [some { schemaname := some "public", name := "tbl_T", path_id := some 7 }, some Zrel, some Wrel] :=
  ⟨rfl, by decide⟩

/-- C1: amended — in the object-type synthesizer a `replace` overlay entry
discards every branch accumulated before it, including the type's own
base storage branch: with overlays `[union X, union Y, replace Z, union W]`
the composed branch list is `[Z, W]`, not `[base, Z, W]`. -/
theorem replace_discards_base :
    ∀ (T : QName) (pid : PathId) (env : Env) (ctr : Nat)
      (X Y Z W : Relation),
      env.rel_overlays (env.schema.materialOf T) =
        [("union", X), ("union", Y), ("replace", Z), ("union", W)] →
      ∃ rvar ctr',
        range_for_material_objtype T pid true env ctr = .ok (rvar, ctr') ∧
        (rvarBranches rvar).map branchSourceRel = [some Z, some W] := by
  intro T pid env ctr X Y Z W hov
  simp only [range_for_material_objtype, hov]
  rw [if_pos (by simp)]
  exact ⟨_, _, rfl, rfl⟩

/-- C1: witness — the amended statement at the concrete fixture. -/
theorem replace_discards_base_witness :
    ∃ rvar ctr',
      range_for_material_objtype Tq 7 true envOverlayT 0 =
        .ok (rvar, ctr') ∧
      (rvarBranches rvar).map branchSourceRel = [some Zrel, some Wrel] :=
  replace_discards_base Tq 7 envOverlayT 0 Xrel Yrel Zrel Wrel rfl

theorem except_map_ok {ε α β : Type _} (x : Except ε α) (f : α → β) (b : β)
    (h : x.map f = .ok b) : ∃ a, x = .ok a ∧ f a = b := by
  cases x with
  | error e => simp [Except.map] at h
  | ok a =>
      refine ⟨a, rfl, ?_⟩
      simpa [Except.map] using h

theorem except_bind_ok {ε α β : Type _} (x : Except ε α)
    (f : α → Except ε β) (b : β) (h : x.bind f = .ok b) :
    ∃ a, x = .ok a ∧ f a = .ok b := by
  cases x with
  | error e => simp [Except.bind] at h
  | ok a => exact ⟨a, rfl, h⟩

theorem leftDeepChain_cons_shape (ps : List (String × Node)) :
    ∀ (p : String × Node) (f : Node),
      ∃ op l r, leftDeepChain f (p :: ps) =
        .selectStmt [] [] (some op) (some l) (some r) true false none [] []
          none := by
  induction ps with
  | nil => intro p f; exact ⟨p.1, f, p.2, rfl⟩
  | cons q qs ih =>
      intro p f
      exact ih q (.selectStmt [] [] (some p.1) (some f) (some p.2) true
        false none [] [] none)

theorem chainLeaves_leftDeep (rest : List (String × Node)) :
    ∀ f : Node,
      chainLeaves (leftDeepChain f rest) =
        chainLeaves f ++ rest.map Prod.snd := by
  induction rest with
  | nil => intro f; simp [leftDeepChain]
  | cons p ps ih =>
      intro f
      have h1 : leftDeepChain f (p :: ps) =
          leftDeepChain (.selectStmt [] [] (some p.1) (some f) (some p.2)
            true false none [] [] none) ps := rfl
      have h2 : chainLeaves (Node.selectStmt [] [] (some p.1) (some f)
          (some p.2) true false none [] [] none) =
          chainLeaves f ++ [p.2] := rfl
      rw [h1, ih, h2]
      simp

theorem stampQuery_spec (n : Node) (pid : PathId) (h : GoodRvar n) :
    (n.stampQuery pid).queryIsDistinct = true ∧
      (n.stampQuery pid).queryPathId = some pid := by
  cases n with
  | rangeVar r a => exact ⟨rfl, rfl⟩
  | rangeSubselect s a =>
      cases s with
      | selectStmt fc tl op l r al d p prm pb rr => exact ⟨rfl, rfl⟩
      | rangeVar r2 a2 => exact h.elim
      | rangeSubselect s2 a2 => exact h.elim
  | selectStmt fc tl op l r al d p prm pb rr => exact h.elim

theorem stamp_good (n : Node) (pid : PathId) (h : GoodRvar n) :
    GoodRvar (n.stampQuery pid) := by
  cases n with
  | rangeVar r a => exact trivial
  | rangeSubselect s a =>
      cases s with
      | selectStmt fc tl op l r al d p prm pb rr => exact trivial
      | rangeVar r2 a2 => exact h.elim
      | rangeSubselect s2 a2 => exact h.elim
  | selectStmt fc tl op l r al d p prm pb rr => exact h.elim

theorem rfq_good (so : List (String × Node)) (stype : QName) (env : Env)
    (ctr : Nat) (rvar : Node) (ctr' : Nat)
    (hel : ∀ e ∈ so, ElemOk e)
    (h : range_from_queryset so stype env ctr = .ok (rvar, ctr')) :
    GoodRvar rvar := by
  match so with
  | [] => exact Except.noConfusion h
  | [e] =>
      obtain ⟨hd, tl, hfc, hg⟩ := hel e (by simp)
      rw [rfq_single e hd tl stype env ctr hfc] at h
      injection h with hp
      injection hp with h1 h2
      subst h1
      exact hg
  | e1 :: e2 :: rest =>
      rw [rfq_cons_cons] at h
      injection h with hp
      injection hp with h1 h2
      subst h1
      obtain ⟨op, l, r, heq⟩ := leftDeepChain_cons_shape rest e2 e1.2
      rw [heq]
      exact trivial

theorem overlayLoop_elemOk (ovs : List (String × Relation)) :
    ∀ (pid : PathId) (so : List (String × Node)) (ctr : Nat),
      (∀ e ∈ so, ElemOk e) →
      ∀ e ∈ (overlayLoop pid ovs so ctr).1, ElemOk e := by
  induction ovs with
  | nil => intro pid so ctr h e he; exact h e he
  | cons oc rest ih =>
      intro pid so ctr h e he
      obtain ⟨op, cte⟩ := oc
      refine ih pid _ _ ?_ e he
      intro e' he'
      rcases List.mem_append.mp he' with h1 | h1
      · by_cases hrep : op = "replace"
        · rw [if_pos hrep] at h1
          exact absurd h1 (List.not_mem_nil e')
        · rw [if_neg hrep] at h1
          exact h e' h1
      · rw [List.mem_singleton] at h1
        subst h1
        exact ⟨_, _, rfl, trivial⟩

theorem material_good (T : QName) (pid : PathId) (inc : Bool) (env : Env)
    (ctr : Nat) (rvar : Node) (ctr' : Nat)
    (h : range_for_material_objtype T pid inc env ctr = .ok (rvar, ctr')) :
    GoodRvar rvar := by
  simp only [range_for_material_objtype] at h
  split at h
  · refine rfq_good _ _ _ _ _ _ ?_ h
    refine overlayLoop_elemOk _ _ _ _ ?_
    intro e he
    rw [List.mem_singleton] at he
    subst he
    exact ⟨_, _, rfl, trivial⟩
  · injection h with hp
    injection hp with h1 h2
    subst h1
    exact trivial

theorem childrenLoop_elemOk (children : List QName) :
    ∀ (rec : QName → Nat → Except Err (Node × Nat)) (pid : PathId)
      (so : List (String × Node)) (ctr : Nat)
      (out : List (String × Node) × Nat),
      (∀ c c2 rv c3, rec c c2 = .ok (rv, c3) → GoodRvar rv) →
      (∀ e ∈ so, ElemOk e) →
      childrenLoop rec pid children so ctr = .ok out →
      ∀ e ∈ out.1, ElemOk e := by
  induction children with
  | nil =>
      intro rec pid so ctr out hrec hso h e he
      injection h with h1
      subst h1
      exact hso e he
  | cons c cs ih =>
      intro rec pid so ctr out hrec hso h e he
      obtain ⟨⟨crv, ctr2⟩, hr, hrest⟩ := except_bind_ok _ _ _ h
      refine ih rec pid _ ctr2 out hrec ?_ hrest e he
      intro e' he'
      rcases List.mem_append.mp he' with h1 | h1
      · exact hso e' h1
      · rw [List.mem_singleton] at h1
        subst h1
        exact ⟨crv, [], rfl, hrec c ctr crv ctr2 hr⟩

theorem range_for_objtype_spec (fuel : Nat) :
    ∀ (T : QName) (pid : PathId) (inc : Bool) (env : Env) (ctr : Nat)
      (rvar : Node) (ctr' : Nat),
      range_for_objtype fuel T pid inc env ctr = .ok (rvar, ctr') →
      GoodRvar rvar ∧ rvar.queryIsDistinct = true ∧
        rvar.queryPathId = some pid := by
  induction fuel with
  | zero => intro T pid inc env ctr rvar ctr' h; exact Except.noConfusion h
  | succ fuel ih =>
      intro T pid inc env ctr rvar ctr' h
      obtain ⟨⟨r, c2⟩, hbr, heq⟩ := except_map_ok _ _ _ h
      injection heq with h1 h2
      subst h1
      have hg : GoodRvar r := by
        split at hbr
        · exact material_good _ _ _ _ _ _ _ hbr
        · obtain ⟨⟨so, c3⟩, hcl, hrf⟩ := except_bind_ok _ _ _ hbr
          refine rfq_good _ _ _ _ _ _ ?_ hrf
          refine childrenLoop_elemOk _ _ _ _ _ _ ?_ ?_ hcl
          · intro c cc2 rv cc3 hc
            exact (ih c pid inc env cc2 rv cc3 hc).1
          · intro e he
            exact absurd he (List.not_mem_nil e)
      exact ⟨stamp_good r pid hg, stampQuery_spec r pid hg⟩

/-- C5: the object-type range dispatcher always returns a range whose
query is marked `is_distinct = true` and is stamped with the given path
identifier, whether the type was virtual or concrete. -/
theorem objtype_range_stamped :
    ∀ (fuel : Nat) (T : QName) (pid : PathId) (inc : Bool) (env : Env)
      (ctr : Nat) (rvar : Node) (ctr' : Nat),
      range_for_objtype fuel T pid inc env ctr = .ok (rvar, ctr') →
      rvar.queryIsDistinct = true ∧ rvar.queryPathId = some pid :=
  fun fuel T pid inc env ctr rvar ctr' h =>
    (range_for_objtype_spec fuel T pid inc env ctr rvar ctr' h).2

/-- C5: witness — the concrete type `default::T` under `envPtr2`. -/
theorem objtype_range_stamped_witness :
    Node.queryIsDistinct valObj.1 = true ∧
      Node.queryPathId valObj.1 = some 7 :=
  objtype_range_stamped 1 Tq 7 true envPtr2 0 valObj.1 valObj.2 rfl

theorem ptrOverlayLoop_suffix (cols : List String)
    (ovs : List (String × Relation)) :
    ∀ (so : List (String × Node)) (ctr : Nat),
      ∃ suf, (ptrOverlayLoop cols ovs so ctr).1 = so ++ suf ∧
        suf.map Prod.fst = ovs.map Prod.fst ∧
        suf.length = ovs.length := by
  induction ovs with
  | nil => intro so ctr; exact ⟨[], by simp [ptrOverlayLoop], rfl, rfl⟩
  | cons oc rest ih =>
      intro so ctr
      obtain ⟨op, cte⟩ := oc
      obtain ⟨suf', h1, h2, h3⟩ := ih (so ++ [(op,
        .selectStmt [.rangeVar cte ⟨cte.name ++ "~" ++ toString ctr, []⟩]
          (cols.map fun col => { val := { name := [col] } })
          none none none false false none [] [] none)]) (ctr + 1)
      refine ⟨(op,
        .selectStmt [.rangeVar cte ⟨cte.name ++ "~" ++ toString ctr, []⟩]
          (cols.map fun col => { val := { name := [col] } })
          none none none false false none [] [] none) :: suf', ?_, ?_, ?_⟩
      · rw [List.append_cons]
        exact h1
      · simp only [List.map_cons, h2]
      · simp [h3]

theorem ptrOverlayLoop_head (cols : List String)
    (ovs : List (String × Relation)) :
    ∀ (so : List (String × Node)) (ctr : Nat) (e : String × Node),
      ((ptrOverlayLoop cols ovs so ctr).1).head? = some e →
      so ≠ [] → so.head? = some e := by
  induction ovs with
  | nil => intro so ctr e he _; exact he
  | cons oc rest ih =>
      intro so ctr e he hne
      obtain ⟨op, cte⟩ := oc
      have h2 := ih _ _ e he (by simp)
      cases so with
      | nil => exact absurd rfl hne
      | cons e0 so' => simpa using h2

theorem ptrSourcesLoop_head (ln : QName) (cols : List String) (inc : Bool)
    (env : Env) (srcs : List QName) :
    ∀ (seen : List QName) (so : List (String × Node)) (ctr : Nat),
      (∀ e, so.head? = some e → PtrElemBase e) →
      ∀ e, ((ptrSourcesLoop ln cols inc env srcs seen so ctr).1).head? =
          some e → PtrElemBase e := by
  induction srcs with
  | nil => intro seen so ctr h e he; exact h e he
  | cons s rest ih =>
      intro seen so ctr h e he
      cases hgp : env.schema.getptr s ln with
      | none =>
          simp only [ptrSourcesLoop, hgp] at he
          exact ih _ _ _ h e he
      | some p =>
          simp only [ptrSourcesLoop, hgp] at he
          by_cases hmem : env.schema.ptrMaterialOf p ∈ seen
          · rw [if_pos hmem] at he
            exact ih _ _ _ h e he
          · rw [if_neg hmem] at he
            refine ih _ _ _ ?_ e he
            intro e' he'
            split at he'
            · have h3 := ptrOverlayLoop_head cols _ _ _ e' he' (by simp)
              cases so with
              | nil =>
                  simp at h3
                  subst h3
                  exact ⟨_, _, _, rfl, rfl⟩
              | cons e0 so'' =>
                  simp at h3
                  subst h3
                  exact h e0 rfl
            · cases so with
              | nil =>
                  simp at he'
                  subst he'
                  exact ⟨_, _, _, rfl, rfl⟩
              | cons e0 so'' =>
                  simp at he'
                  subst he'
                  exact h e0 rfl

theorem rfq_result_distinct (so : List (String × Node)) (stype : QName)
    (env : Env) (ctr : Nat) (rvar : Node) (ctr' : Nat)
    (hhead : ∀ e, so.head? = some e → PtrElemBase e)
    (h : range_from_queryset so stype env ctr = .ok (rvar, ctr')) :
    rvar.queryIsDistinct = false := by
  match so with
  | [] => exact Except.noConfusion h
  | [e] =>
      obtain ⟨rel, al, tl, hfc, hdist⟩ := hhead e rfl
      rw [rfq_single e _ _ stype env ctr hfc] at h
      injection h with hp
      injection hp with h1 h2
      subst h1
      exact hdist
  | e1 :: e2 :: rest =>
      rw [rfq_cons_cons] at h
      injection h with hp
      injection hp with h1 h2
      subst h1
      obtain ⟨op, l, r, heq⟩ := leftDeepChain_cons_shape rest e2 e1.2
      rw [heq]
      rfl

theorem ptr_not_distinct (p : QName) (d : String) (inc : Bool) (env : Env)
    (ctr : Nat) (rvar : Node) (ctr' : Nat)
    (h : range_for_ptrcls p d inc env ctr = .ok (rvar, ctr')) :
    rvar.queryIsDistinct = false := by
  refine rfq_result_distinct _ _ _ _ _ _ ?_ h
  exact ptrSourcesLoop_head _ _ _ _ _ _ _ _
    (fun e he => Option.noConfusion he)

/-- C3: counterexample — the pointer range for `lnk` under `envPtr2` is
composed from two distinct storage sources yet its query is not marked
distinct (`range_for_ptrcls` composes with `UNION ALL` and never sets
`is_distinct`). -/
theorem distinct_marking_cex :
    ((range_for_ptrcls Pq "outbound" true envPtr2 0).toOption.map
        fun p => ((rvarBranches p.1).length, p.1.queryIsDistinct)) =
      some (2, false) := rfl

/-- C3: amended — object-type ranges (including virtual unions over
children) are always marked distinct by the object-type dispatcher, but
pointer ranges are never marked distinct, no matter how many storage
tables and overlays they union. -/
theorem distinct_marking :
    (∀ (fuel : Nat) (T : QName) (pid : PathId) (inc : Bool) (env : Env)
        (ctr : Nat) (rvar : Node) (ctr' : Nat),
        range_for_objtype fuel T pid inc env ctr = .ok (rvar, ctr') →
        rvar.queryIsDistinct = true) ∧
    (∀ (p : QName) (d : String) (inc : Bool) (env : Env) (ctr : Nat)
        (rvar : Node) (ctr' : Nat),
        range_for_ptrcls p d inc env ctr = .ok (rvar, ctr') →
        rvar.queryIsDistinct = false) :=
  ⟨fun fuel T pid inc env ctr rvar ctr' h =>
      (range_for_objtype_spec fuel T pid inc env ctr rvar ctr' h).2.1,
    ptr_not_distinct⟩

/-- C3: witness — both halves at concrete inputs under `envPtr2`. -/
theorem distinct_marking_witness :
    Node.queryIsDistinct valObj.1 = true ∧
      Node.queryIsDistinct valPtr2.1 = false :=
  ⟨distinct_marking.1 1 Tq 7 true envPtr2 0 valObj.1 valObj.2 rfl,
    distinct_marking.2 Pq "outbound" true envPtr2 0 valPtr2.1 valPtr2.2 rfl⟩

/-- C4: counterexample — with overlays `[union X, replace Z]` registered
for the pointer, the synthesized range keeps all three branches (base, X,
Z) and the `replace` operation surfaces verbatim as a set operation: no
branch accumulated before it is discarded. -/
theorem ptr_replace_no_reset_cex :
    ((range_for_ptrcls Pq "outbound" true envPtrOv 0).toOption.map
        fun p => ((rvarBranches p.1).length, rvarChainOps p.1)) =
      some (3, ["union", "replace"]) := rfl

/-- C4: amended — in the pointer/link range synthesizer a `replace`
overlay entry has no reset semantics at consumption time: the overlay
loop appends exactly one branch per overlay entry after the branches
already accumulated, preserving every prior branch and every operation
string (including `replace`) unchanged. -/
theorem ptr_replace_no_reset :
    ∀ (cols : List String) (ovs : List (String × Relation))
      (so : List (String × Node)) (ctr : Nat),
      ∃ suf, (ptrOverlayLoop cols ovs so ctr).1 = so ++ suf ∧
        suf.map Prod.fst = ovs.map Prod.fst ∧
        suf.length = ovs.length :=
  fun cols ovs => ptrOverlayLoop_suffix cols ovs

theorem rvarBranches_subselect (s : Node) (al : Alias) :
    rvarBranches (.rangeSubselect s al) = chainLeaves s := rfl

theorem chainLeaves_baseQry (env : Env) (cols : List String) (m : QName)
    (a : String) :
    chainLeaves (baseQryFor env cols m a) = [baseQryFor env cols m a] := rfl

theorem dedupFirst_mem (l : List QName) :
    ∀ (seen : List QName) (m : QName),
      m ∈ dedupFirst seen l ↔ m ∈ l ∧ m ∉ seen := by
  induction l with
  | nil => intro seen m; simp [dedupFirst]
  | cons a rest ih =>
      intro seen m
      by_cases ha : a ∈ seen
      · rw [show dedupFirst seen (a :: rest) = dedupFirst seen rest from by
          simp only [dedupFirst]; rw [if_pos ha]]
        by_cases hma : m = a
        · subst hma
          simp [ha, ih seen m]
        · simp [List.mem_cons, hma, ih seen m]
      · rw [show dedupFirst seen (a :: rest) =
            a :: dedupFirst (a :: seen) rest from by
          simp only [dedupFirst]; rw [if_neg ha]]
        by_cases hma : m = a
        · subst hma
          simp [ha, List.mem_cons]
        · simp [List.mem_cons, hma, ih (a :: seen) m]

theorem dedupFirst_nodup (l : List QName) :
    ∀ seen : List QName, (dedupFirst seen l).Nodup := by
  induction l with
  | nil => intro seen; exact List.nodup_nil
  | cons a rest ih =>
      intro seen
      by_cases ha : a ∈ seen
      · rw [show dedupFirst seen (a :: rest) = dedupFirst seen rest from by
          simp only [dedupFirst]; rw [if_pos ha]]
        exact ih seen
      · rw [show dedupFirst seen (a :: rest) =
            a :: dedupFirst (a :: seen) rest from by
          simp only [dedupFirst]; rw [if_neg ha]]
        refine List.nodup_cons.mpr ⟨?_, ih (a :: seen)⟩
        intro hmem
        exact ((dedupFirst_mem rest (a :: seen) a).mp hmem).2
          (List.mem_cons_self a seen)

theorem branchesFor_storage (env : Env) (cols : List String) :
    ∀ (ms : List QName) (brs : List (String × Node)),
      BranchesFor env cols ms brs →
      brs.map (fun e => branchStorageRel e.2) =
        ms.map (fun m => some (tableRelFor env m)) := by
  intro ms brs h
  induction h with
  | nil => rfl
  | cons m a ms' brs' hrec ih =>
      simp only [List.map_cons, ih]
      rfl

theorem ptrSourcesLoop_branches (ln : QName) (cols : List String)
    (inc : Bool) (env : Env) (hnov : ∀ q, env.rel_overlays q = [])
    (srcs : List QName) :
    ∀ (seen : List QName) (so : List (String × Node)) (ctr : Nat),
      ∃ suf,
        (ptrSourcesLoop ln cols inc env srcs seen so ctr).1 = so ++ suf ∧
        BranchesFor env cols (dedupFirst seen (materialsOf env ln srcs))
          suf := by
  induction srcs with
  | nil =>
      intro seen so ctr
      exact ⟨[], by simp [ptrSourcesLoop], BranchesFor.nil⟩
  | cons s rest ih =>
      intro seen so ctr
      cases hgp : env.schema.getptr s ln with
      | none =>
          have hm : materialsOf env ln (s :: rest) =
              materialsOf env ln rest := by
            simp [materialsOf, List.filterMap_cons, hgp]
          simp only [ptrSourcesLoop, hgp]
          rw [hm]
          exact ih seen so ctr
      | some p =>
          have hm : materialsOf env ln (s :: rest) =
              env.schema.ptrMaterialOf p :: materialsOf env ln rest := by
            simp [materialsOf, List.filterMap_cons, hgp]
          simp only [ptrSourcesLoop, hgp]
          by_cases hmem : env.schema.ptrMaterialOf p ∈ seen
          · rw [if_pos hmem, hm]
            rw [show dedupFirst seen (env.schema.ptrMaterialOf p ::
                materialsOf env ln rest) =
                dedupFirst seen (materialsOf env ln rest) from by
              simp only [dedupFirst]; rw [if_pos hmem]]
            exact ih seen so ctr
          · rw [if_neg hmem, hm]
            rw [show dedupFirst seen (env.schema.ptrMaterialOf p ::
                materialsOf env ln rest) =
                env.schema.ptrMaterialOf p ::
                  dedupFirst (env.schema.ptrMaterialOf p :: seen)
                    (materialsOf env ln rest) from by
              simp only [dedupFirst]; rw [if_neg hmem]]
            rw [hnov]
            rw [if_neg (by simp)]
            obtain ⟨suf', h1, h2⟩ := ih (env.schema.ptrMaterialOf p :: seen)
              (so ++ [("union", baseQryFor env cols
                (env.schema.ptrMaterialOf p)
                ((env.schema.shortNameOf
                  (env.schema.ptrMaterialOf p)).name ++ "~" ++
                    toString ctr))])
              (ctr + 1)
            refine ⟨("union", baseQryFor env cols
              (env.schema.ptrMaterialOf p)
              ((env.schema.shortNameOf
                (env.schema.ptrMaterialOf p)).name ++ "~" ++
                  toString ctr)) :: suf', ?_, ?_⟩
            · rw [← List.append_cons] at h1
              exact h1
            · exact BranchesFor.cons _ _ _ _ h2

theorem rfq_branches_of_branchesFor (env : Env) (cols : List String) :
    ∀ (ids : List QName) (suf : List (String × Node)) (stype : QName)
      (ctr : Nat) (rvar : Node) (ctr' : Nat),
      BranchesFor env cols ids suf →
      range_from_queryset suf stype env ctr = .ok (rvar, ctr') →
      (rvarBranches rvar).map branchStorageRel =
        ids.map (fun m => some (tableRelFor env m)) := by
  intro ids suf stype ctr rvar ctr' hb h
  cases hb with
  | nil => exact Except.noConfusion h
  | cons m a ms brs hbr =>
      cases hbr with
      | nil =>
          injection h with hp
          injection hp with hv hc
          subst hv
          rfl
      | cons m2 a2 ms2 brs2 hbr2 =>
          rw [rfq_cons_cons] at h
          injection h with hp
          injection hp with hv hc
          subst hv
          rw [rvarBranches_subselect, chainLeaves_leftDeep]
          rw [show (("union", baseQryFor env cols m a) : String × Node).2 =
            baseQryFor env cols m a from rfl]
          rw [chainLeaves_baseQry]
          simp only [List.singleton_append, List.map_cons, List.map_map]
          refine congrArg₂ List.cons ?_ ?_
          · rfl
          · exact branchesFor_storage env cols _ _
              (BranchesFor.cons m2 a2 ms2 brs2 hbr2)

/-- C6: for a link implemented across a source-type hierarchy (no overlays
registered), the synthesized pointer range contains exactly one branch per
distinct storage-owning (material) pointer identity, not one branch per
descendant: the branch storage list equals the first-occurrence dedup of
the material pointers found, which is duplicate-free and covers exactly
the pointers encountered. -/
theorem ptr_dedup_branches :
    ∀ (ptrcls : QName) (d : String) (inc : Bool) (env : Env) (ctr : Nat)
      (rvar : Node) (ctr' : Nat),
      (∀ q, env.rel_overlays q = []) →
      range_for_ptrcls ptrcls d inc env ctr = .ok (rvar, ctr') →
      (rvarBranches rvar).map branchStorageRel =
        (dedupFirst [] (materialsOf env (env.schema.shortNameOf ptrcls)
          (env.schema.ptrSourceOf ptrcls ::
            env.schema.descendantsOf
              (env.schema.ptrSourceOf ptrcls)))).map
          (fun m => some (tableRelFor env m)) ∧
      (dedupFirst [] (materialsOf env (env.schema.shortNameOf ptrcls)
        (env.schema.ptrSourceOf ptrcls ::
          env.schema.descendantsOf
            (env.schema.ptrSourceOf ptrcls)))).Nodup ∧
      (∀ m, m ∈ dedupFirst [] (materialsOf env
          (env.schema.shortNameOf ptrcls)
          (env.schema.ptrSourceOf ptrcls ::
            env.schema.descendantsOf (env.schema.ptrSourceOf ptrcls))) ↔
        m ∈ materialsOf env (env.schema.shortNameOf ptrcls)
          (env.schema.ptrSourceOf ptrcls ::
            env.schema.descendantsOf (env.schema.ptrSourceOf ptrcls))) := by
  intro ptrcls d inc env ctr rvar ctr' hnov h
  refine ⟨?_, dedupFirst_nodup _ [], fun m => by rw [dedupFirst_mem]; simp⟩
  obtain ⟨suf, h1, h2⟩ := ptrSourcesLoop_branches
    (env.schema.shortNameOf ptrcls)
    ["std::source", env.schema.ptrStorageCol ptrcls] inc env hnov
    (env.schema.ptrSourceOf ptrcls ::
      env.schema.descendantsOf (env.schema.ptrSourceOf ptrcls))
    [] [] ctr
  rw [List.nil_append] at h1
  simp only [range_for_ptrcls] at h
  rw [h1] at h
  exact rfq_branches_of_branchesFor env _ _ _ _ _ _ _ h2 h

/-- C6: witness — `Root`, `Child1`, `Child2` sharing one material pointer
yield exactly one branch, not three. -/
theorem ptr_dedup_branches_witness :
    ((rvarBranches valShared.1).map branchStorageRel =
      (dedupFirst [] (materialsOf envShared
        (envShared.schema.shortNameOf Pq)
        (envShared.schema.ptrSourceOf Pq ::
          envShared.schema.descendantsOf
            (envShared.schema.ptrSourceOf Pq)))).map
        (fun m => some (tableRelFor envShared m)) ∧
      (dedupFirst [] (materialsOf envShared
        (envShared.schema.shortNameOf Pq)
        (envShared.schema.ptrSourceOf Pq ::
          envShared.schema.descendantsOf
            (envShared.schema.ptrSourceOf Pq)))).Nodup ∧
      (∀ m, m ∈ dedupFirst [] (materialsOf envShared
          (envShared.schema.shortNameOf Pq)
          (envShared.schema.ptrSourceOf Pq ::
            envShared.schema.descendantsOf
              (envShared.schema.ptrSourceOf Pq))) ↔
        m ∈ materialsOf envShared (envShared.schema.shortNameOf Pq)
          (envShared.schema.ptrSourceOf Pq ::
            envShared.schema.descendantsOf
              (envShared.schema.ptrSourceOf Pq)))) ∧
    (rvarBranches valShared.1).length = 1 :=
  ⟨ptr_dedup_branches Pq "outbound" true envShared 0 valShared.1
      valShared.2 (fun _ => rfl) rfl,
    rfl⟩
